import Mathlib

/-!
Verification of the codebase semantic-indexing pipeline of the `pi`
extension repository: the chunker, the embedding client, the vector-store
search, and the indexing orchestrator, as implemented in the codebase-index
extension (`chunkFile`, `cosineSimilarity`, `searchByEmbedding`, `embed`,
and the `index` command handler).

Strings are modelled as lists of characters; JavaScript numbers are
modelled as rationals where the code only stores and moves them and as
real numbers where square roots are taken (`cosineSimilarity`).
-/

namespace CodebaseIndex
/-- Strings are modelled as lists of characters. -/
abbrev Str := List Char

/-- Configuration constant: target chunk size in characters. -/
def CHUNK_SIZE : Nat := 6000

/-- Configuration constant: maximum file size in bytes. -/
def MAX_FILE_SIZE : Nat := 100 * 1024

/-- Configuration constant: chunks per embedding batch. -/
def BATCH_SIZE : Nat := 10

/-- Configuration constant: hard character limit before the embedding call. -/
def MAX_EMBED_CHARS : Nat := 24000

/-- Model of the JavaScript `content.split("\n")`: split a string at every
newline character; the empty string yields one empty line. -/
def splitNl : Str → List Str
  | [] => [[]]
  | c :: rest =>
    if c = '\n' then [] :: splitNl rest
    else
      match splitNl rest with
      | [] => [[c]]
      | l :: ls => (c :: l) :: ls

/-- Join a list of lines with the newline separator (the inverse of
`splitNl`): model of `lines.join("\n")`. -/
def joinNl : List Str → Str
  | [] => []
  | [l] => l
  | l :: l2 :: rest => l ++ '\n' :: joinNl (l2 :: rest)

/-- Model of JavaScript `t.length > n ? t.slice(0, n) : t`. -/
def truncTo (n : Nat) (s : Str) : Str :=
  if n < s.length then s.take n else s

/-- One chunk of a file, as produced by `chunkFile` (the `FileChunk`
interface of the source). -/
structure FileChunk where
  path : Str
  content : Str
  hash : Str
  chunkIndex : Nat
  startLine : Nat
  endLine : Nat
  deriving DecidableEq, Repr

/-- The loop body of `chunkFile`: walks the lines, greedily accumulating a
current chunk.  The parameters mirror the loop state of the source:
`i` is the 0-based index of the next line, `cur` the accumulated current
chunk, `start` the 1-based start line of the current chunk, `idx` the next
chunk index.  A line longer than `CHUNK_SIZE` is truncated before
accumulation; when appending the next line would push the accumulation past
`CHUNK_SIZE` the current chunk is emitted (with 1-based line range
`[start, i]`) and a new chunk starts at the current line. -/
def chunkAux (path hash : Str) : List Str → Nat → Str → Nat → Nat → List FileChunk
  | [], i, cur, start, idx =>
    if cur = [] then [] else [⟨path, cur, hash, idx, start, i⟩]
  | l :: rest, i, cur, start, idx =>
    let line := if CHUNK_SIZE < l.length then l.take CHUNK_SIZE else l
    let newChunk := if cur = [] then line else cur ++ '\n' :: line
    if CHUNK_SIZE < newChunk.length then
      if cur = [] then
        chunkAux path hash rest (i + 1) line (i + 1) idx
      else
        ⟨path, cur, hash, idx, start, i⟩ :: chunkAux path hash rest (i + 1) line (i + 1) (idx + 1)
    else
      chunkAux path hash rest (i + 1) newChunk start idx

/-- Model of the source `chunkFile(filePath, content)`: split the content
into lines and accumulate bounded chunks.  The whole-file content hash is
abstracted as a function parameter `hashF` (the source computes a sha256
prefix, an external primitive). -/
def chunkFile (hashF : Str → Str) (filePath content : Str) : List FileChunk :=
  chunkAux filePath (hashF content) (splitNl content) 0 [] 1 0

/-- Accumulated sum of pairwise products, the single loop of the source
walking both vectors in step.  The source computes `dotProduct`, `normA`
and `normB` in one pass over equal-length vectors; the three accumulators
are the three instances `dotProduct a b`, `dotProduct a a` and
`dotProduct b b` of this function.  JavaScript numbers are modelled as
real numbers (the source takes square roots). -/
noncomputable def dotProduct : List ℝ → List ℝ → ℝ
  | a :: as, b :: bs => a * b + dotProduct as bs
  | _, _ => 0

/-- Model of the source `cosineSimilarity(a, b)` for the equal-length
vectors the store holds: dot product over the product of Euclidean norms,
with no guard against zero norms. -/
noncomputable def cosineSimilarity (a b : List ℝ) : ℝ :=
  dotProduct a b / (Real.sqrt (dotProduct a a) * Real.sqrt (dotProduct b b))

/-- One persisted row of the `chunks` table, with the columns in schema
order; `embedding` is nullable (`Option`), holding a decoded vector of
element type β (the source stores base64-encoded 32-bit floats; the
encoding round trip is outside the claims). -/
structure DbRow (β : Type) where
  path : Str
  hash : Str
  chunkIndex : Nat
  startLine : Nat
  endLine : Nat
  content : Str
  embedding : Option β
  deriving DecidableEq, Repr

/-- An ephemeral search result (the `SearchResult` interface of the
source), with score type α. -/
structure SearchRes (α : Type) where
  path : Str
  content : Str
  score : α
  startLine : Nat
  endLine : Nat
  deriving DecidableEq, Repr

/-- The exclude-path filter of `searchByEmbedding`: the JavaScript test
keeps a row when `excludePath` is falsy (absent or the empty string) or
differs from the row's path. -/
def exclKeep (excl : Option Str) (p : Str) : Bool :=
  match excl with
  | none => true
  | some e => decide (e = []) || decide (p ≠ e)

/-- Model of the source `searchByEmbedding(queryEmbedding, limit,
excludePath)` over an open store `rows`: select the rows whose embedding is
non-null (returning the explicit no-data signal `none` if there are none),
drop the excluded path, score each remaining row, sort by descending score
(a stable sort, as JavaScript's) and keep the first `limit` results.
The query embedding enters only through the per-row score
`cosineSimilarity(queryEmbedding, embedding)`; it is abstracted as the
function `score`, so the definition is generic in the linearly ordered
score type α (the source instantiates `score e = cosineSimilarity q e`
with real-valued scores). -/
def searchByEmbedding {β α : Type} [LinearOrder α] (score : β → α) (limit : Nat)
    (excl : Option Str) (rows : List (DbRow β)) : Option (List (SearchRes α)) :=
  let embedded := rows.filterMap (fun r => r.embedding.map (fun e => (r, e)))
  if embedded.isEmpty then none
  else
    some ((((embedded.filter (fun re => exclKeep excl re.1.path)).map
      (fun re => ⟨re.1.path, re.1.content, score re.2, re.1.startLine, re.1.endLine⟩)).mergeSort
        (fun a b => decide (b.score ≤ a.score))).take limit)

/-- Model of the source `embed(texts)`.  The remote call
`mistral.embeddings.create` is the external parameter `embedF`: it receives
the length-capped texts and either throws (`Except.error`) or returns the
response items, each carrying an optional `embedding` field (the SDK type
marks the field optional, hence `Option`).  The source then maps the items
to their embeddings and FILTERS OUT the undefined ones
(`.filter((e) => e !== undefined)`), which is the modelled `filterMap`. -/
def embed (embedF : List Str → Except Str (List (Option (List ℚ))))
    (texts : List Str) : Except Str (List (List ℚ)) :=
  match embedF (texts.map (truncTo MAX_EMBED_CHARS)) with
  | .error e => .error e
  | .ok data => .ok (data.filterMap id)

/-- A file presented to the index run: its path, its on-disk size in bytes,
and its content, which is `none` when the file cannot be read as text. -/
structure IFile where
  path : Str
  size : Nat
  content : Option Str
  deriving DecidableEq, Repr

/-- Model of the source `isLikelyBinary(content)`: more than ten characters
of the first thousand are control characters other than tab, newline and
carriage return. -/
def isLikelyBinary (content : Str) : Bool :=
  decide (10 <
    ((content.take 1000).filter (fun c =>
      decide (c.toNat < 32) && !(decide (c.toNat = 9)) && !(decide (c.toNat = 10)) &&
        !(decide (c.toNat = 13)))).length)

/-- Store rows with rational-vector embeddings, as held by the index run. -/
abbrev DbRowQ := DbRow (List ℚ)

/-- Model of the source query SELECT hash FROM chunks WHERE path = ? LIMIT
1: the hash of the first row with the given path, if any. -/
def storedHash {β : Type} (store : List (DbRow β)) (p : Str) : Option Str :=
  (store.find? (fun r => r.path == p)).map DbRow.hash

/-- The mutable state of the file-collection loop of the index handler:
the store, the flat list of collected chunks, and the indexed/skipped
counters. -/
structure ScanState where
  store : List DbRowQ
  chunks : List FileChunk
  indexed : Nat
  skipped : Nat
  deriving Repr

/-- Model of one iteration of the file loop of the `index` command handler:
skip (counting only) when the file is oversized, unreadable, binary-looking
or already stored with an identical content hash; otherwise delete the
file's old rows, chunk its content and append the chunks to the collected
list. -/
def processFile (hashF : Str → Str) (st : ScanState) (f : IFile) : ScanState :=
  if MAX_FILE_SIZE < f.size then { st with skipped := st.skipped + 1 }
  else
    match f.content with
    | none => { st with skipped := st.skipped + 1 }
    | some content =>
      if isLikelyBinary content then { st with skipped := st.skipped + 1 }
      else if storedHash st.store f.path = some (hashF content) then
        { st with skipped := st.skipped + 1 }
      else
        { store := st.store.filter (fun r => !(r.path == f.path)),
          chunks := st.chunks ++ chunkFile hashF f.path content,
          indexed := st.indexed + 1,
          skipped := st.skipped }

/-- The file-collection loop over all scanned files. -/
def scanFiles (hashF : Str → Str) (st : ScanState) (files : List IFile) : ScanState :=
  files.foldl (processFile hashF) st

/-- The embedding text of a chunk: the path-prefixed content, as built by
the batch loop of the index handler. -/
def chunkText (c : FileChunk) : Str :=
  ('F' :: 'i' :: 'l' :: 'e' :: ':' :: ' ' :: c.path) ++ '\n' :: '\n' :: c.content

/-- A freshly embedded row as inserted by the batch loop. -/
def rowOfChunk (c : FileChunk) (e : List ℚ) : DbRowQ :=
  ⟨c.path, c.hash, c.chunkIndex, c.startLine, c.endLine, c.content, some e⟩

/-- The inner insertion loop over one batch: row j pairs chunk j with
embedding j.  When the embeddings list is shorter than the batch (the C1
misalignment), the JavaScript code reads `undefined`, encodes it as an
empty buffer and stores the empty string, which decodes to the empty
vector: hence the default value []. -/
def insertRows (embeds : List (List ℚ)) : Nat → List FileChunk → List DbRowQ
  | _, [] => []
  | j, c :: cs => rowOfChunk c ((embeds[j]?).getD []) :: insertRows embeds (j + 1) cs

/-- One batch step: embed the length-capped, path-prefixed texts and insert
a row per chunk on success; on a batch error, report and insert nothing. -/
def insertBatch (embedF : List Str → Except Str (List (Option (List ℚ))))
    (store : List DbRowQ) (batch : List FileChunk) : List DbRowQ :=
  match embed embedF (batch.map (fun c => truncTo MAX_EMBED_CHARS (chunkText c))) with
  | .error _ => store
  | .ok embeds => store ++ insertRows embeds 0 batch

/-- The batch loop of the index handler: walk the collected chunks in
slices of `BATCH_SIZE`, embedding and inserting each slice in turn. -/
def insertBatches (embedF : List Str → Except Str (List (Option (List ℚ))))
    (store : List DbRowQ) (chunks : List FileChunk) : List DbRowQ :=
  if h : chunks.isEmpty then store
  else
    insertBatches embedF (insertBatch embedF store (chunks.take BATCH_SIZE))
      (chunks.drop BATCH_SIZE)
termination_by chunks.length
decreasing_by
  rw [List.length_drop]
  have : chunks ≠ [] := by simpa using h
  have h0 : 0 < chunks.length := List.length_pos.mpr this
  simp [BATCH_SIZE]
  omega

/-- The error message of `initMistral` when the credential is absent. -/
def missingKeyMsg : Str :=
  ("MISTRAL_API_KEY environment variable is required").toList

/-- The outcome of one run of the `index` command handler. -/
structure RunResult where
  fatal : Option Str
  store : List DbRowQ
  chunks : List FileChunk
  indexed : Nat
  skipped : Nat
  deriving Repr

/-- Model of the `index` command handler: after the store is opened, the
client is constructed on first use — when no client exists yet and the
credential `apiKey` is absent, `initMistral` throws and the run aborts
before any file is visited, reporting the error; otherwise the handler
scans the files, collects chunks, embeds them in batches and inserts the
results.  The filesystem scan result is the parameter `files` (paths
deduplicated by the scanner), the hash primitive is `hashF`, and the
remote embedding call is `embedF`. -/
def indexRun (hashF : Str → Str) (apiKey : Option Str) (hasClient : Bool)
    (store : List DbRowQ) (files : List IFile)
    (embedF : List Str → Except Str (List (Option (List ℚ)))) : RunResult :=
  if hasClient = false ∧ apiKey = none then
    ⟨some missingKeyMsg, store, [], 0, 0⟩
  else
    let st := scanFiles hashF ⟨store, [], 0, 0⟩ files
    ⟨none, insertBatches embedF st.store st.chunks, st.chunks, st.indexed, st.skipped⟩

example : splitNl ('a' :: '\n' :: 'b' :: []) = [['a'], ['b']] := by decide

theorem splitNl_ne_nil (s : Str) : splitNl s ≠ [] := by
  cases s with
  | nil => simp [splitNl]
  | cons c rest =>
    simp only [splitNl]
    split
    · simp
    · split <;> simp

theorem joinNl_cons_of_ne_nil (a : Str) (ls : List Str) (h : ls ≠ []) :
    joinNl (a :: ls) = a ++ '\n' :: joinNl ls := by
  cases ls with
  | nil => exact absurd rfl h
  | cons b t => rfl

/-- Joining the lines of `splitNl s` recovers `s`. -/
theorem joinNl_splitNl (s : Str) : joinNl (splitNl s) = s := by
  induction s with
  | nil => rfl
  | cons c rest ih =>
    by_cases hc : c = '\n'
    · subst hc
      have h1 : splitNl ('\n' :: rest) = [] :: splitNl rest := by simp [splitNl]
      rw [h1, joinNl_cons_of_ne_nil [] (splitNl rest) (splitNl_ne_nil rest), ih]
      rfl
    · simp only [splitNl, if_neg hc]
      rcases hsp : splitNl rest with _ | ⟨l, ls⟩
      · exact absurd hsp (splitNl_ne_nil rest)
      · rw [hsp] at ih
        cases ls with
        | nil =>
          simp only [joinNl] at ih ⊢
          rw [ih]
        | cons l2 t =>
          rw [joinNl_cons_of_ne_nil (c :: l) (l2 :: t) (by simp)]
          rw [joinNl_cons_of_ne_nil l (l2 :: t) (by simp)] at ih
          rw [← ih]
          rfl

theorem joinNl_append_line (a b : Str) (ls : List Str) :
    joinNl ((a ++ '\n' :: b) :: ls) = a ++ '\n' :: joinNl (b :: ls) := by
  cases ls with
  | nil => rfl
  | cons c t =>
    rw [joinNl_cons_of_ne_nil (a ++ '\n' :: b) (c :: t) (by simp),
        joinNl_cons_of_ne_nil b (c :: t) (by simp), List.append_assoc]
    rfl

theorem chunkAux_ne_nil (path hash : Str) :
    ∀ (lines : List Str) (i : Nat) (cur : Str) (start idx : Nat), cur ≠ [] →
      chunkAux path hash lines i cur start idx ≠ [] := by
  intro lines
  induction lines with
  | nil => intro i cur start idx hcur; simp [chunkAux, hcur]
  | cons l rest ih =>
    intro i cur start idx hcur
    simp only [chunkAux, if_neg hcur]
    set line := if CHUNK_SIZE < l.length then l.take CHUNK_SIZE else l with hline
    split
    · simp
    · exact ih (i + 1) _ start idx (by simp)

/-- Core round-trip invariant: starting from a non-empty accumulated chunk,
if every remaining line is non-empty and within the size bound, the contents
of the emitted chunks rejoin to the accumulated chunk followed by the
remaining lines. -/
theorem chunkAux_join (path hash : Str) :
    ∀ (lines : List Str) (i : Nat) (cur : Str) (start idx : Nat), cur ≠ [] →
      (∀ l ∈ lines, l ≠ [] ∧ l.length ≤ CHUNK_SIZE) →
      joinNl ((chunkAux path hash lines i cur start idx).map FileChunk.content) =
        joinNl (cur :: lines) := by
  intro lines
  induction lines with
  | nil =>
    intro i cur start idx hcur _
    simp [chunkAux, hcur, joinNl]
  | cons l rest ih =>
    intro i cur start idx hcur hl
    obtain ⟨hlne, hllen⟩ := hl l (by simp)
    have hrest : ∀ x ∈ rest, x ≠ [] ∧ x.length ≤ CHUNK_SIZE :=
      fun x hx => hl x (by simp [hx])
    simp only [chunkAux, if_neg (not_lt_of_le hllen), if_neg hcur]
    split
    · have hrec := ih (i + 1) l (i + 1) (idx + 1) hlne hrest
      have hnn : (chunkAux path hash rest (i + 1) l (i + 1) (idx + 1)).map FileChunk.content ≠ [] := by
        simp only [ne_eq, List.map_eq_nil_iff]
        exact chunkAux_ne_nil path hash rest (i + 1) l (i + 1) (idx + 1) hlne
      rw [List.map_cons, joinNl_cons_of_ne_nil _ _ hnn, hrec,
          joinNl_cons_of_ne_nil cur (l :: rest) (by simp)]
    · rw [ih (i + 1) (cur ++ '\n' :: l) start idx (by simp) hrest,
        joinNl_append_line, joinNl_cons_of_ne_nil cur (l :: rest) (by simp)]

example :
    chunkFile (fun _ => ['h']) ['f'] ('a' :: '\n' :: 'b' :: []) =
      [⟨['f'], 'a' :: '\n' :: 'b' :: [], ['h'], 0, 1, 2⟩] := by decide

example : chunkFile (fun _ => ['h']) ['f'] [] = [] := by decide

/-- C2 (counterexample): the round trip is not exact for every content whose
lines all fit in `CHUNK_SIZE`.  The content consisting of a newline followed
by the letter a has the two lines [] and [a], both far below `CHUNK_SIZE`,
yet chunking drops the leading empty line: the single produced chunk has
content [a], and rejoining gives [a], not the original content. -/
theorem chunkFile_roundtrip_cex :
    splitNl ('\n' :: 'a' :: []) = [[], ['a']] ∧
    (∀ l ∈ splitNl ('\n' :: 'a' :: []), l.length ≤ CHUNK_SIZE) ∧
    chunkFile (fun _ => ['h']) ['f'] ('\n' :: 'a' :: []) =
      [⟨['f'], ['a'], ['h'], 0, 1, 2⟩] ∧
    joinNl ((chunkFile (fun _ => ['h']) ['f'] ('\n' :: 'a' :: [])).map FileChunk.content) =
      ['a'] ∧
    ('a' :: []) ≠ ('\n' :: 'a' :: []) := by
  refine ⟨by decide, ?_, by decide, by decide, by decide⟩
  decide

/-- C2 (amended): for every content whose lines are all non-empty and of
length at most `CHUNK_SIZE`, rejoining the chunk contents produced by
`chunkFile` with the newline separator reproduces the content exactly. -/
theorem chunkFile_roundtrip (hashF : Str → Str) (p content : Str)
    (h : ∀ l ∈ splitNl content, l ≠ [] ∧ l.length ≤ CHUNK_SIZE) :
    joinNl ((chunkFile hashF p content).map FileChunk.content) = content := by
  rcases hsp : splitNl content with _ | ⟨l0, rest⟩
  · exact absurd hsp (splitNl_ne_nil content)
  · rw [chunkFile, hsp]
    rw [hsp] at h
    obtain ⟨h0ne, h0len⟩ := h l0 (by simp)
    have hrest : ∀ x ∈ rest, x ≠ [] ∧ x.length ≤ CHUNK_SIZE :=
      fun x hx => h x (by simp [hx])
    have hstep :
        chunkAux p (hashF content) (l0 :: rest) 0 [] 1 0 =
          chunkAux p (hashF content) rest 1 l0 1 0 := by
      simp [chunkAux, not_lt_of_le h0len]
    rw [hstep, chunkAux_join p (hashF content) rest 1 l0 1 0 h0ne hrest,
        ← hsp, joinNl_splitNl]

/-- C2 (witness): the two-line content a, b has non-empty short lines, and
its chunking rejoins to the original content. -/
theorem chunkFile_roundtrip_witness :
    joinNl ((chunkFile (fun _ => ['h']) ['f'] ('a' :: '\n' :: 'b' :: [])).map
        FileChunk.content) =
      ('a' :: '\n' :: 'b' :: []) :=
  chunkFile_roundtrip (fun _ => ['h']) ['f'] ('a' :: '\n' :: 'b' :: []) (by decide)

theorem chunkAux_indices (path hash : Str) :
    ∀ (lines : List Str) (i : Nat) (cur : Str) (start idx : Nat),
      (chunkAux path hash lines i cur start idx).map FileChunk.chunkIndex =
        List.range' idx (chunkAux path hash lines i cur start idx).length := by
  intro lines
  induction lines with
  | nil =>
    intro i cur start idx
    by_cases hcur : cur = [] <;> simp [chunkAux, hcur, List.range'_succ]
  | cons l rest ih =>
    intro i cur start idx
    simp only [chunkAux]
    generalize (if CHUNK_SIZE < l.length then l.take CHUNK_SIZE else l) = line
    by_cases hcur : cur = []
    · simp only [if_pos hcur]
      split
      · exact ih (i + 1) line (i + 1) idx
      · exact ih (i + 1) line start idx
    · simp only [if_neg hcur]
      split
      · simp only [List.map_cons, List.length_cons, ih (i + 1) line (i + 1) (idx + 1)]
        rw [List.range'_succ]
      · exact ih (i + 1) (cur ++ '\n' :: line) start idx

theorem chunkAux_lines (path hash : Str) :
    ∀ (lines : List Str) (i : Nat) (cur : Str) (start idx : Nat),
      (cur ≠ [] → start ≤ i) → start ≤ i + 1 → 1 ≤ start →
      ∀ ch ∈ chunkAux path hash lines i cur start idx,
        1 ≤ ch.startLine ∧ ch.startLine ≤ ch.endLine ∧ start ≤ ch.startLine := by
  intro lines
  induction lines with
  | nil =>
    intro i cur start idx h1 _ h3 ch hch
    by_cases hcur : cur = []
    · simp [chunkAux, hcur] at hch
    · simp only [chunkAux, if_neg hcur, List.mem_singleton] at hch
      subst hch
      exact ⟨h3, h1 hcur, le_refl _⟩
  | cons l rest ih =>
    intro i cur start idx h1 h2 h3
    simp only [chunkAux]
    generalize (if CHUNK_SIZE < l.length then l.take CHUNK_SIZE else l) = line
    by_cases hcur : cur = []
    · simp only [if_pos hcur]
      split
      · intro ch hch
        have hrec := ih (i + 1) line (i + 1) idx (fun _ => le_refl _) (by omega) (by omega) ch hch
        exact ⟨hrec.1, hrec.2.1, le_trans h2 hrec.2.2⟩
      · exact ih (i + 1) line start idx (fun _ => h2) (by omega) h3
    · simp only [if_neg hcur]
      split
      · intro ch hch
        rcases List.mem_cons.mp hch with hch | hch
        · subst hch
          exact ⟨h3, h1 hcur, le_refl _⟩
        · have hrec := ih (i + 1) line (i + 1) (idx + 1)
            (fun _ => le_refl _) (by omega) (by omega) ch hch
          exact ⟨hrec.1, hrec.2.1, le_trans h2 hrec.2.2⟩
      · exact ih (i + 1) (cur ++ '\n' :: line) start idx (fun _ => h2) (by omega) h3

theorem chunkAux_chain (path hash : Str) :
    ∀ (lines : List Str) (i : Nat) (cur : Str) (start idx : Nat),
      (cur ≠ [] → start ≤ i) → start ≤ i + 1 → 1 ≤ start →
      List.Chain' (fun a b : FileChunk => a.endLine < b.startLine)
        (chunkAux path hash lines i cur start idx) := by
  intro lines
  induction lines with
  | nil =>
    intro i cur start idx _ _ _
    by_cases hcur : cur = [] <;> simp [chunkAux, hcur]
  | cons l rest ih =>
    intro i cur start idx h1 h2 h3
    simp only [chunkAux]
    generalize (if CHUNK_SIZE < l.length then l.take CHUNK_SIZE else l) = line
    by_cases hcur : cur = []
    · simp only [if_pos hcur]
      split
      · exact ih (i + 1) line (i + 1) idx (fun _ => le_refl _) (by omega) (by omega)
      · exact ih (i + 1) line start idx (fun _ => h2) (by omega) h3
    · simp only [if_neg hcur]
      split
      · rw [List.chain'_cons']
        refine ⟨?_, ih (i + 1) line (i + 1) (idx + 1) (fun _ => le_refl _) (by omega) (by omega)⟩
        intro b hb
        have hbm := List.mem_of_mem_head? hb
        have hb2 := chunkAux_lines path hash rest (i + 1) line (i + 1) (idx + 1)
          (fun _ => le_refl _) (by omega) (by omega) b hbm
        exact lt_of_lt_of_le (Nat.lt_succ_self i) hb2.2.2
      · exact ih (i + 1) (cur ++ '\n' :: line) start idx (fun _ => h2) (by omega) h3

theorem chunkAux_content_le (path hash : Str) :
    ∀ (lines : List Str) (i : Nat) (cur : Str) (start idx : Nat),
      cur.length ≤ CHUNK_SIZE →
      ∀ ch ∈ chunkAux path hash lines i cur start idx, ch.content.length ≤ CHUNK_SIZE := by
  intro lines
  induction lines with
  | nil =>
    intro i cur start idx hcl ch hch
    by_cases hcur : cur = []
    · simp [chunkAux, hcur] at hch
    · simp only [chunkAux, if_neg hcur, List.mem_singleton] at hch
      subst hch
      exact hcl
  | cons l rest ih =>
    intro i cur start idx hcl
    simp only [chunkAux]
    have hline0 : (if CHUNK_SIZE < l.length then l.take CHUNK_SIZE else l).length ≤ CHUNK_SIZE := by
      split
      · rw [List.length_take]
        omega
      · omega
    generalize hgen : (if CHUNK_SIZE < l.length then l.take CHUNK_SIZE else l) = line
    rw [hgen] at hline0
    by_cases hcur : cur = []
    · simp only [if_pos hcur]
      split
      · exact ih (i + 1) line (i + 1) idx hline0
      · exact ih (i + 1) line start idx hline0
    · simp only [if_neg hcur]
      split
      · intro ch hch
        rcases List.mem_cons.mp hch with hch | hch
        · subst hch
          exact hcl
        · exact ih (i + 1) line (i + 1) (idx + 1) hline0 ch hch
      · next hnc =>
        exact ih (i + 1) (cur ++ '\n' :: line) start idx (by omega)

/-- C3: for every hash function, path and content, the chunks of
`chunkFile` carry chunk indices exactly 0..n-1 in order, 1-based line
ranges with `startLine ≤ endLine`, and strictly increasing, non-overlapping
ranges (each chunk ends strictly before the next one starts). -/
theorem chunkFile_indices_ranges (hashF : Str → Str) (p content : Str) :
    (chunkFile hashF p content).map FileChunk.chunkIndex =
      List.range (chunkFile hashF p content).length ∧
    (∀ ch ∈ chunkFile hashF p content, 1 ≤ ch.startLine ∧ ch.startLine ≤ ch.endLine) ∧
    List.Chain' (fun a b : FileChunk => a.endLine < b.startLine)
      (chunkFile hashF p content) := by
  refine ⟨?_, ?_, ?_⟩
  · rw [List.range_eq_range']
    exact chunkAux_indices p (hashF content) (splitNl content) 0 [] 1 0
  · intro ch hch
    have := chunkAux_lines p (hashF content) (splitNl content) 0 [] 1 0
      (fun hc => absurd rfl hc) (by omega) (by omega) ch hch
    exact ⟨this.1, this.2.1⟩
  · exact chunkAux_chain p (hashF content) (splitNl content) 0 [] 1 0
      (fun hc => absurd rfl hc) (by omega) (by omega)

/-- C3 (witness): the single chunk of the two-line content a, b has chunk
index 0 and line range [1, 2]. -/
theorem chunkFile_indices_ranges_witness :
    (⟨['f'], 'a' :: '\n' :: 'b' :: [], ['h'], 0, 1, 2⟩ : FileChunk) ∈
      chunkFile (fun _ => ['h']) ['f'] ('a' :: '\n' :: 'b' :: []) ∧
    (1 ≤ 1 ∧ 1 ≤ 2) :=
  ⟨by decide,
    (chunkFile_indices_ranges (fun _ => ['h']) ['f'] ('a' :: '\n' :: 'b' :: [])).2.1
      ⟨['f'], 'a' :: '\n' :: 'b' :: [], ['h'], 0, 1, 2⟩ (by decide)⟩

/-- C4: every chunk produced by `chunkFile`, for every input content
(including contents with individual lines longer than `CHUNK_SIZE`, which
are truncated before accumulation), has content length at most
`CHUNK_SIZE`. -/
theorem chunkFile_content_le (hashF : Str → Str) (p content : Str) :
    ∀ ch ∈ chunkFile hashF p content, ch.content.length ≤ CHUNK_SIZE :=
  chunkAux_content_le p (hashF content) (splitNl content) 0 [] 1 0 (by simp [CHUNK_SIZE])

theorem dotProduct_self_nonneg (v : List ℝ) : 0 ≤ dotProduct v v := by
  induction v with
  | nil => simp [dotProduct]
  | cons a as ih => simpa [dotProduct] using add_nonneg (mul_self_nonneg a) ih

theorem dotProduct_self_pos (v : List ℝ) (h : ∃ x ∈ v, x ≠ 0) :
    0 < dotProduct v v := by
  induction v with
  | nil => simp at h
  | cons a as ih =>
    rcases h with ⟨x, hx, hxne⟩
    rcases List.mem_cons.mp hx with rfl | hx
    · exact add_pos_of_pos_of_nonneg (mul_self_pos.mpr hxne) (dotProduct_self_nonneg as)
    · exact add_pos_of_nonneg_of_pos (mul_self_nonneg a) (ih ⟨x, hx, hxne⟩)

theorem dotProduct_map_neg (v : List ℝ) :
    dotProduct v (v.map (fun x => -x)) = -dotProduct v v := by
  induction v with
  | nil => simp [dotProduct]
  | cons a as ih =>
    simp only [List.map_cons, dotProduct, ih]
    ring

theorem dotProduct_neg_neg (v : List ℝ) :
    dotProduct (v.map (fun x => -x)) (v.map (fun x => -x)) = dotProduct v v := by
  induction v with
  | nil => simp [dotProduct]
  | cons a as ih =>
    simp only [List.map_cons, dotProduct, ih]
    ring

/-- C9: for every non-zero vector v, the cosine similarity of v with itself
is exactly 1 and with its negation exactly -1 (in the ideal real-number
model; the spec asks for this up to floating-point tolerance). -/
theorem cosineSimilarity_self_and_neg (v : List ℝ) (h : ∃ x ∈ v, x ≠ 0) :
    cosineSimilarity v v = 1 ∧ cosineSimilarity v (v.map (fun x => -x)) = -1 := by
  have hpos := dotProduct_self_pos v h
  have hsq : Real.sqrt (dotProduct v v) * Real.sqrt (dotProduct v v) = dotProduct v v :=
    Real.mul_self_sqrt (le_of_lt hpos)
  constructor
  · rw [cosineSimilarity, hsq]
    exact div_self (ne_of_gt hpos)
  · rw [cosineSimilarity, dotProduct_map_neg, dotProduct_neg_neg, hsq, neg_div]
    rw [div_self (ne_of_gt hpos)]

/-- C9 (witness): the one-dimensional vector with entry 1 is non-zero and
has self-similarity 1 and similarity -1 with its negation. -/
theorem cosineSimilarity_self_and_neg_witness :
    cosineSimilarity [(1 : ℝ)] [(1 : ℝ)] = 1 ∧
    cosineSimilarity [(1 : ℝ)] ([(1 : ℝ)].map (fun x => -x)) = -1 :=
  ⟨(cosineSimilarity_self_and_neg [(1 : ℝ)] ⟨1, by simp⟩).1,
    (cosineSimilarity_self_and_neg [(1 : ℝ)] ⟨1, by simp⟩).2⟩

/-- C4 (witness): the chunk of a small concrete file is within the bound. -/
theorem chunkFile_content_le_witness :
    (⟨['f'], 'a' :: '\n' :: 'b' :: [], ['h'], 0, 1, 2⟩ : FileChunk) ∈
      chunkFile (fun _ => ['h']) ['f'] ('a' :: '\n' :: 'b' :: []) ∧
    ('a' :: '\n' :: 'b' :: []).length ≤ CHUNK_SIZE :=
  ⟨by decide,
    chunkFile_content_le (fun _ => ['h']) ['f'] ('a' :: '\n' :: 'b' :: [])
      ⟨['f'], 'a' :: '\n' :: 'b' :: [], ['h'], 0, 1, 2⟩ (by decide)⟩

theorem length_embedded {β : Type} (rows : List (DbRow β)) :
    (rows.filterMap (fun r => r.embedding.map (fun e => (r, e)))).length =
      rows.countP (fun r => r.embedding.isSome) := by
  induction rows with
  | nil => rfl
  | cons r rest ih =>
    rcases hre : r.embedding with _ | e <;>
      simp [List.filterMap_cons, List.countP_cons, hre, ih]

/-- C5: whenever `searchByEmbedding` returns a result list, that list is
sorted by descending score and contains at most `limit` results; with no
excluded path its length is exactly the smaller of `limit` and the number
of embedded rows in the store. -/
theorem searchByEmbedding_sorted_limit {β α : Type} [LinearOrder α] (score : β → α)
    (limit : Nat) (excl : Option Str) (rows : List (DbRow β))
    (res : List (SearchRes α)) (h : searchByEmbedding score limit excl rows = some res) :
    List.Sorted (fun a b : SearchRes α => b.score ≤ a.score) res ∧
    res.length ≤ limit ∧
    (excl = none →
      res.length = min limit (rows.countP (fun r => r.embedding.isSome))) := by
  have htrans : ∀ a b c : SearchRes α,
      (fun a b : SearchRes α => decide (b.score ≤ a.score)) a b →
      (fun a b : SearchRes α => decide (b.score ≤ a.score)) b c →
      (fun a b : SearchRes α => decide (b.score ≤ a.score)) a c := by
    intro a b c hab hbc
    simp only [decide_eq_true_eq] at hab hbc ⊢
    exact le_trans hbc hab
  have htotal : ∀ a b : SearchRes α,
      ((fun a b : SearchRes α => decide (b.score ≤ a.score)) a b ||
        (fun a b : SearchRes α => decide (b.score ≤ a.score)) b a) := by
    intro a b
    simp only [Bool.or_eq_true, decide_eq_true_eq]
    exact le_total b.score a.score
  simp only [searchByEmbedding] at h
  split at h
  · exact absurd h (by simp)
  · rw [Option.some_inj] at h
    subst h
    refine ⟨?_, ?_, ?_⟩
    · exact (List.Pairwise.sublist (List.take_sublist limit _)
        (List.sorted_mergeSort htrans htotal _)).imp (fun hab => of_decide_eq_true hab)
    · rw [List.length_take, List.length_mergeSort]
      exact min_le_left _ _
    · intro hexcl
      subst hexcl
      rw [List.length_take, List.length_mergeSort, List.length_map]
      simp only [exclKeep, List.filter_true]
      rw [length_embedded rows]

/-- C5 (witness): searching a one-row store with limit 5 returns its single
result, which is sorted and within the limit. -/
theorem searchByEmbedding_sorted_limit_witness :
    searchByEmbedding (fun _ : Nat => (0 : Nat)) 5 none
        [⟨['a'], ['h'], 0, 1, 2, ['x'], some 0⟩] =
      some [⟨['a'], ['x'], 0, 1, 2⟩] ∧
    List.Sorted (fun a b : SearchRes Nat => b.score ≤ a.score)
      [(⟨['a'], ['x'], 0, 1, 2⟩ : SearchRes Nat)] ∧
    ([(⟨['a'], ['x'], 0, 1, 2⟩ : SearchRes Nat)]).length ≤ 5 := by
  have hEq : searchByEmbedding (fun _ : Nat => (0 : Nat)) 5 none
      [⟨['a'], ['h'], 0, 1, 2, ['x'], some 0⟩] =
      some [⟨['a'], ['x'], 0, 1, 2⟩] := by
    simp [searchByEmbedding, exclKeep]
  exact ⟨hEq,
    (searchByEmbedding_sorted_limit (fun _ : Nat => (0 : Nat)) 5 none _ _ hEq).1,
    (searchByEmbedding_sorted_limit (fun _ : Nat => (0 : Nat)) 5 none _ _ hEq).2.1⟩

/-- C6: `searchByEmbedding` over an open store returns the explicit no-data
signal `none` (distinct from `some []`) exactly when no row of the store
has a non-null embedding; a store with at least one embedded row never
yields the signal. -/
theorem searchByEmbedding_none_iff {β α : Type} [LinearOrder α] (score : β → α)
    (limit : Nat) (excl : Option Str) (rows : List (DbRow β)) :
    searchByEmbedding score limit excl rows = none ↔
      rows.countP (fun r => r.embedding.isSome) = 0 := by
  constructor
  · intro h
    simp only [searchByEmbedding] at h
    split at h
    · next hemp =>
      rw [← length_embedded rows, ← List.isEmpty_iff_length_eq_zero]
      exact hemp
    · exact absurd h (by simp)
  · intro h
    have hemp : (rows.filterMap (fun r => r.embedding.map (fun e => (r, e)))).isEmpty := by
      rw [List.isEmpty_iff_length_eq_zero, length_embedded rows]
      exact h
    simp only [searchByEmbedding, hemp]
    rfl

/-- C1 (failing input): for the two-text batch a, b, a remote response whose
first item has no embedding field makes `embed` return a single vector —
the one belonging to the second text — instead of failing the whole batch:
a silently misaligned partial-batch result.  (The spec's claim of
same-length, same-order or whole-batch failure is what the code was meant
to do; the caller stores `embeddings[j]` against `batch[j]` by index.) -/
theorem embed_partial_batch :
    embed (fun _ => Except.ok [none, some [(1 : ℚ)]]) [['a'], ['b']] =
      Except.ok [[(1 : ℚ)]] ∧
    ([[(1 : ℚ)]] : List (List ℚ)).length ≠ ([['a'], ['b']] : List Str).length := by
  constructor
  · rfl
  · decide

/-- C8: when the credential is absent and no client has been constructed
yet, the index run aborts with the fatal configuration error, leaving the
store exactly as it was, collecting no chunk and visiting no file (the
result does not depend on `files` at all); and when a client already
exists, the absence of the credential does not abort the run. -/
theorem indexRun_missing_key (hashF : Str → Str) (store : List DbRowQ)
    (files : List IFile) (embedF : List Str → Except Str (List (Option (List ℚ)))) :
    indexRun hashF none false store files embedF =
      ⟨some missingKeyMsg, store, [], 0, 0⟩ ∧
    (indexRun hashF none true store files embedF).fatal = none := by
  constructor
  · simp [indexRun]
  · simp [indexRun]

theorem find?_eq_head?_filter {β : Type} (s : List (DbRow β)) (p : Str) :
    s.find? (fun r => r.path == p) = (s.filter (fun r => r.path == p)).head? := by
  induction s with
  | nil => rfl
  | cons r rest ih =>
    rw [List.find?_cons, List.filter_cons]
    cases hb : (r.path == p)
    · simpa using ih
    · simp

theorem storedHash_congr {β : Type} (s t : List (DbRow β)) (p : Str)
    (h : s.filter (fun r => r.path == p) = t.filter (fun r => r.path == p)) :
    storedHash s p = storedHash t p := by
  simp only [storedHash, find?_eq_head?_filter, h]

theorem chunkAux_path (path hash : Str) :
    ∀ (lines : List Str) (i : Nat) (cur : Str) (start idx : Nat),
      ∀ ch ∈ chunkAux path hash lines i cur start idx, ch.path = path := by
  intro lines
  induction lines with
  | nil =>
    intro i cur start idx ch hch
    by_cases hcur : cur = []
    · simp [chunkAux, hcur] at hch
    · simp only [chunkAux, if_neg hcur, List.mem_singleton] at hch
      subst hch
      rfl
  | cons l rest ih =>
    intro i cur start idx
    simp only [chunkAux]
    generalize (if CHUNK_SIZE < l.length then l.take CHUNK_SIZE else l) = line
    by_cases hcur : cur = []
    · simp only [if_pos hcur]
      split
      · exact ih (i + 1) line (i + 1) idx
      · exact ih (i + 1) line start idx
    · simp only [if_neg hcur]
      split
      · intro ch hch
        rcases List.mem_cons.mp hch with hch | hch
        · subst hch
          rfl
        · exact ih (i + 1) line (i + 1) (idx + 1) ch hch
      · exact ih (i + 1) (cur ++ '\n' :: line) start idx

theorem chunkFile_path (hashF : Str → Str) (p content : Str) :
    ∀ ch ∈ chunkFile hashF p content, ch.path = p :=
  chunkAux_path p (hashF content) (splitNl content) 0 [] 1 0

theorem processFile_frame (hashF : Str → Str) (st : ScanState) (f : IFile) (p : Str)
    (hne : f.path ≠ p) :
    ((processFile hashF st f).store.filter (fun r => r.path == p) =
      st.store.filter (fun r => r.path == p)) ∧
    (∀ ch ∈ (processFile hashF st f).chunks, ch ∈ st.chunks ∨ ch.path ≠ p) := by
  have hskip : ∀ k : Nat,
      (({ st with skipped := k } : ScanState).store.filter (fun r => r.path == p) =
        st.store.filter (fun r => r.path == p)) ∧
      (∀ ch ∈ ({ st with skipped := k } : ScanState).chunks, ch ∈ st.chunks ∨ ch.path ≠ p) :=
    fun _ => ⟨rfl, fun _ hch => Or.inl hch⟩
  simp only [processFile]
  split
  · exact hskip _
  · split
    · exact hskip _
    · split
      · exact hskip _
      · split
        · exact hskip _
        · constructor
          · rw [List.filter_filter]
            apply List.filter_congr
            intro r _
            cases hrp : (r.path == p)
            · simp
            · have hr : r.path = p := by simpa using hrp
              have : (r.path == f.path) = false := by
                simp only [beq_eq_false_iff_ne, ne_eq, hr]
                exact fun hpf => hne hpf.symm
              simp [this]
          · intro ch hch
            rcases List.mem_append.mp hch with hch | hch
            · exact Or.inl hch
            · exact Or.inr
                (fun hp => hne ((chunkFile_path hashF f.path _ ch hch).symm.trans hp))

theorem scanFiles_frame (hashF : Str → Str) (p : Str) :
    ∀ (files : List IFile) (st : ScanState),
      (∀ g ∈ files, g.path ≠ p) →
      ((scanFiles hashF st files).store.filter (fun r => r.path == p) =
        st.store.filter (fun r => r.path == p)) ∧
      (∀ ch ∈ (scanFiles hashF st files).chunks, ch ∈ st.chunks ∨ ch.path ≠ p) := by
  intro files
  induction files with
  | nil => exact fun st _ => ⟨rfl, fun _ hch => Or.inl hch⟩
  | cons g gs ih =>
    intro st hall
    have hg := hall g (by simp)
    have hpf := processFile_frame hashF st g p hg
    have hrec := ih (processFile hashF st g) (fun x hx => hall x (by simp [hx]))
    rw [show scanFiles hashF st (g :: gs) = scanFiles hashF (processFile hashF st g) gs
      from rfl]
    refine ⟨hrec.1.trans hpf.1, ?_⟩
    intro ch hch
    rcases hrec.2 ch hch with hch2 | hch2
    · rcases hpf.2 ch hch2 with h3 | h3
      · exact Or.inl h3
      · exact Or.inr h3
    · exact Or.inr hch2

/-- The hash-match fast path of the file loop: with a readable file whose
stored hash equals the hash of its current content, the iteration only
increments the skipped counter — the store and the collected chunk list
are untouched and no chunking happens. -/
theorem processFile_skip (hashF : Str → Str) (st : ScanState) (f : IFile) (c : Str)
    (hc : f.content = some c)
    (hh : storedHash st.store f.path = some (hashF c)) :
    processFile hashF st f = { st with skipped := st.skipped + 1 } := by
  simp [processFile, hc, hh]

theorem scanFiles_skip (hashF : Str → Str) (f : IFile) (c : Str) (hc : f.content = some c) :
    ∀ (files : List IFile) (st : ScanState),
      f ∈ files → (files.map IFile.path).Nodup →
      storedHash st.store f.path = some (hashF c) →
      ((scanFiles hashF st files).store.filter (fun r => r.path == f.path) =
        st.store.filter (fun r => r.path == f.path)) ∧
      (∀ ch ∈ (scanFiles hashF st files).chunks, ch ∈ st.chunks ∨ ch.path ≠ f.path) := by
  intro files
  induction files with
  | nil => intro st hmem; simp at hmem
  | cons g gs ih =>
    intro st hmem hnd hh
    have hnd2 : (∀ x ∈ gs, ¬x.path = g.path) ∧ (List.map IFile.path gs).Nodup := by
      simpa using hnd
    rcases List.mem_cons.mp hmem with heq | hmem2
    · subst heq
      rw [show scanFiles hashF st (f :: gs) = scanFiles hashF (processFile hashF st f) gs
          from rfl,
        processFile_skip hashF st f c hc hh]
      exact scanFiles_frame hashF f.path gs _ (fun x hx => hnd2.1 x hx)
    · have hgf : g.path ≠ f.path := fun hgp => hnd2.1 f hmem2 hgp.symm
      have hpf := processFile_frame hashF st g f.path hgf
      have hh2 : storedHash (processFile hashF st g).store f.path = some (hashF c) :=
        (storedHash_congr _ _ _ hpf.1).trans hh
      have hrec := ih (processFile hashF st g) hmem2 hnd2.2 hh2
      rw [show scanFiles hashF st (g :: gs) = scanFiles hashF (processFile hashF st g) gs
        from rfl]
      refine ⟨hrec.1.trans hpf.1, ?_⟩
      intro ch hch
      rcases hrec.2 ch hch with h3 | h3
      · rcases hpf.2 ch h3 with h4 | h4
        · exact Or.inl h4
        · exact Or.inr h4
      · exact Or.inr h3

theorem insertRows_path (embeds : List (List ℚ)) :
    ∀ (j : Nat) (batch : List FileChunk) (r : DbRowQ), r ∈ insertRows embeds j batch →
      ∃ c ∈ batch, r.path = c.path := by
  intro j batch
  induction batch generalizing j with
  | nil => intro r hr; simp [insertRows] at hr
  | cons c cs ih =>
    intro r hr
    rcases List.mem_cons.mp hr with hr | hr
    · exact ⟨c, by simp, by rw [hr]; rfl⟩
    · obtain ⟨c2, hc2, hrp⟩ := ih (j + 1) r hr
      exact ⟨c2, by simp [hc2], hrp⟩

theorem insertBatch_frame (embedF : List Str → Except Str (List (Option (List ℚ))))
    (store : List DbRowQ) (batch : List FileChunk) (p : Str)
    (hb : ∀ c ∈ batch, c.path ≠ p) :
    (insertBatch embedF store batch).filter (fun r => r.path == p) =
      store.filter (fun r => r.path == p) := by
  simp only [insertBatch]
  split
  · rfl
  · next embeds _ =>
    rw [List.filter_append]
    have hnil : (insertRows embeds 0 batch).filter (fun r => r.path == p) = [] := by
      rw [List.filter_eq_nil_iff]
      intro r hr
      obtain ⟨c, hc, hrp⟩ := insertRows_path embeds 0 batch r hr
      simp [hrp, hb c hc]
    rw [hnil, List.append_nil]

theorem insertBatches_frame (embedF : List Str → Except Str (List (Option (List ℚ))))
    (p : Str) :
    ∀ (n : Nat) (chunks : List FileChunk), chunks.length ≤ n →
      ∀ (store : List DbRowQ), (∀ c ∈ chunks, c.path ≠ p) →
      (insertBatches embedF store chunks).filter (fun r => r.path == p) =
        store.filter (fun r => r.path == p) := by
  intro n
  induction n with
  | zero =>
    intro chunks hlen store _
    have hnil : chunks = [] := List.eq_nil_of_length_eq_zero (Nat.le_zero.mp hlen)
    subst hnil
    rw [insertBatches]
    rfl
  | succ n ihn =>
    intro chunks hlen store hc
    rw [insertBatches]
    by_cases hemp : chunks.isEmpty
    · rw [dif_pos hemp]
    · rw [dif_neg hemp]
      have hne : chunks ≠ [] := by simpa using hemp
      have hdrop : (chunks.drop BATCH_SIZE).length ≤ n := by
        rw [List.length_drop]
        have h0 : 0 < chunks.length := List.length_pos.mpr hne
        simp only [BATCH_SIZE]
        omega
      rw [ihn _ hdrop _ (fun x hx => hc x (List.mem_of_mem_drop hx))]
      exact insertBatch_frame embedF store _ p (fun x hx => hc x (List.mem_of_mem_take hx))

/-- C7: during an index run, a file whose stored hash equals the hash of
its current content contributes no chunk to the collected list (so no
chunking or embedding work happens for it), its stored rows survive the
whole run unchanged, and the iteration that visits it does nothing but
increment the skipped counter.  The hypotheses say the file is among the
scanned files (whose paths the scanner deduplicated), is readable, and its
stored hash matches its current hash. -/
theorem indexRun_unchanged_file (hashF : Str → Str) (apiKey : Option Str)
    (hasClient : Bool) (store : List DbRowQ) (files : List IFile)
    (embedF : List Str → Except Str (List (Option (List ℚ))))
    (f : IFile) (c : Str) (hmem : f ∈ files) (hc : f.content = some c)
    (hh : storedHash store f.path = some (hashF c))
    (hnd : (files.map IFile.path).Nodup) :
    (∀ ch ∈ (indexRun hashF apiKey hasClient store files embedF).chunks,
      ch.path ≠ f.path) ∧
    ((indexRun hashF apiKey hasClient store files embedF).store.filter
        (fun r => r.path == f.path) =
      store.filter (fun r => r.path == f.path)) ∧
    (∀ st : ScanState, storedHash st.store f.path = some (hashF c) →
      processFile hashF st f = { st with skipped := st.skipped + 1 }) := by
  refine ⟨?_, ?_, fun st hst => processFile_skip hashF st f c hc hst⟩ <;>
    simp only [indexRun] <;> split
  · intro ch hch
    simp at hch
  · next hcred =>
    intro ch hch
    have hscan := scanFiles_skip hashF f c hc files ⟨store, [], 0, 0⟩ hmem hnd hh
    rcases hscan.2 ch hch with h1 | h1
    · simp at h1
    · exact h1
  · rfl
  · next hcred =>
    have hscan := scanFiles_skip hashF f c hc files ⟨store, [], 0, 0⟩ hmem hnd hh
    have hchunks : ∀ ch ∈ (scanFiles hashF ⟨store, [], 0, 0⟩ files).chunks,
        ch.path ≠ f.path := by
      intro ch hch
      rcases hscan.2 ch hch with h1 | h1
      · simp at h1
      · exact h1
    exact (insertBatches_frame embedF f.path
        ((scanFiles hashF ⟨store, [], 0, 0⟩ files).chunks.length) _ (le_refl _) _
        hchunks).trans hscan.1

/-- C7 (witness): a one-file, one-row concrete run in which the stored hash
matches; the run keeps the file's stored row unchanged. -/
theorem indexRun_unchanged_file_witness :
    (indexRun (fun _ => ['h']) none true
        [⟨['a'], ['h'], 0, 1, 1, ['x'], some [1]⟩]
        [⟨['a'], 1, some ['x']⟩] (fun _ => Except.error ['e'])).store.filter
          (fun r => r.path == ['a']) =
      ([⟨['a'], ['h'], 0, 1, 1, ['x'], some [1]⟩] : List DbRowQ).filter
        (fun r => r.path == ['a']) :=
  (indexRun_unchanged_file (fun _ => ['h']) none true
    [⟨['a'], ['h'], 0, 1, 1, ['x'], some [1]⟩] [⟨['a'], 1, some ['x']⟩]
    (fun _ => Except.error ['e']) ⟨['a'], 1, some ['x']⟩ ['x']
    (by decide) (by decide) (by decide) (by decide)).2.1

end CodebaseIndex
